import Mathlib

/-!
Verification development for the chunk-fetch-and-rescale engine of
`google_trend_crawl.py` (Google Trends chunked crawler).

The program is shallowly embedded: dates are integers (calendar-day codes;
`timedelta(days = k)` arithmetic is integer addition), daily observations are
rows `{date, value}`, a fetched chunk (a pandas DataFrame of one window) is a
list of rows, and monetary-free scaled values live in `ℚ` (the Python floats
only ever arise from one division and multiplications by it).  Fallible
operations (`IndexError` from unguarded `.values[0]` / `.iloc[0]`, exceptions
raised out of `fetch_chunk`) are modelled with `Option` / `Except`.
-/

namespace Crawl

/-- One parsed observation: one day's value inside one chunk
(a row of the DataFrame built by `fetch_chunk`). -/
structure TRow where
  date : Int
  value : Int
deriving DecidableEq, Repr

/-- A fetched chunk: the DataFrame of one `(keyword, window)` pair. -/
abbrev Frame := List TRow

/-- Default row used to totalise pandas positional accesses that the source
performs only on non-empty selections (`iloc[0]`, `iloc[-1]`). -/
def defaultRow : TRow := ⟨0, 0⟩

/-- A row of a scaled chunk: raw row plus `scaled_value`. -/
structure SRow where
  date : Int
  value : Int
  scaled : ℚ
deriving DecidableEq, Repr

/-- Default scaled row (same totalising role as `defaultRow`). -/
def defaultSRow : SRow := ⟨0, 0, 0⟩

/-! ## Chunk Planner (`generate_chunks`, source lines 102-112) -/

/-- `CHUNK_DAYS = 270` (source line 60): 270-day window, inclusive. -/
def CHUNK_DAYS : Int := 270

/-- `OVERLAP_DAYS = 1` (source line 61): overlap size. -/
def OVERLAP_DAYS : Int := 1

/-- `generate_chunks(start, end)`: the `while cur_start <= end` loop of the
source, one recursive call per iteration.  `cur_end = min(cur_start +
timedelta(days=CHUNK_DAYS-1), end)`; the pair is appended; the loop breaks
when `cur_end >= end`, otherwise restarts at
`cur_end - timedelta(days=OVERLAP_DAYS-1)`. -/
def generate_chunks (start : Int) (end_ : Int) : List (Int × Int) :=
  if h : start ≤ end_ then
    let cur_end := min (start + (CHUNK_DAYS - 1)) end_
    if h2 : cur_end ≥ end_ then
      [(start, cur_end)]
    else
      (start, cur_end) :: generate_chunks (cur_end - (OVERLAP_DAYS - 1)) end_
  else []
termination_by (end_ - start).toNat
decreasing_by
  have hc : CHUNK_DAYS = 270 := rfl
  have ho : OVERLAP_DAYS = 1 := rfl
  simp only [hc, ho] at h2 ⊢
  omega

/-! ## Edge Validator (`has_bad_edges`, source lines 186-206) -/

/-- The first `for idx, df in enumerate(frames)` loop of `has_bad_edges`:
returns the reason string of the first failing chunk, `none` if all pass.
`total` is `len(frames)`, `idx` the enumeration index. -/
def checkEdges (total : Nat) : Nat → List Frame → Option String
  | _, [] => none
  | idx, [] :: _ => some ("empty chunk " ++ toString (idx + 1))
  | idx, (r0 :: rs) :: rest =>
    let start_zero := r0.value = 0
    let end_zero := ((r0 :: rs).getLastD defaultRow).value = 0 ∧ idx ≠ total - 1
    if start_zero ∨ end_zero then some "zero start/end"
    else checkEdges total (idx + 1) rest

/-- The second `for i in range(1, len(frames))` loop of `has_bad_edges`:
compares `frames[i-1].iloc[-1]` with `frames[i].iloc[0]` for each adjacent
pair.  (In the source this loop only runs with every frame non-empty; the
positional accesses are totalised with `defaultRow`.) -/
def checkOverlaps : List Frame → Option String
  | f1 :: f2 :: rest =>
    if (f1.getLastD defaultRow).value = 0 ∨ (f2.headD defaultRow).value = 0 then
      some "zero overlap"
    else checkOverlaps (f2 :: rest)
  | _ => none

/-- `has_bad_edges(frames)` (source lines 186-206): `(True, reason)` when the
chunk set is rejected, `(False, "")` when it passes. -/
def has_bad_edges (frames : List Frame) : Bool × String :=
  if frames.isEmpty then (true, "empty frames")
  else
    match checkEdges frames.length 0 frames with
    | some reason => (true, reason)
    | none =>
      match checkOverlaps frames with
      | some reason => (true, reason)
      | none => (false, "")

/-! ## Chain-Link Rescaler (`rescale_chunks`, source lines 209-224) -/

/-- One iteration of the rescale loop (source lines 215-223): `overlap_day =
curr.iloc[0]["date"]`, `prev_val = prev.loc[prev["date"] == overlap_day,
"scaled_value"].values[0]`, `curr_val = curr.loc[curr["date"] == overlap_day,
"value"].values[0]`, `ratio = prev_val / curr_val if curr_val else 1.0`,
`curr["scaled_value"] = curr["value"] * ratio`.  `none` models the
`IndexError` of `.values[0]` (or `iloc[0]`) on an empty selection. -/
def rescaleStep (prev : List SRow) (curr : Frame) : Option (List SRow) :=
  match curr.head? with
  | none => none
  | some h =>
    let overlap_day := h.date
    match (prev.filter (fun r => r.date = overlap_day)).head? with
    | none => none
    | some pr =>
      let prev_val := pr.scaled
      match (curr.filter (fun r => r.date = overlap_day)).head? with
      | none => none
      | some cr =>
        let curr_val := cr.value
        let ratio : ℚ := if curr_val = 0 then 1 else prev_val / (curr_val : ℚ)
        some (curr.map (fun r => ⟨r.date, r.value, (r.value : ℚ) * ratio⟩))

/-- The `for i in range(1, len(frames))` loop of `rescale_chunks`, with `prev`
the most recently scaled chunk (`scaled[-1]`). -/
def rescaleLoop (prev : List SRow) : List Frame → Option (List (List SRow))
  | [] => some []
  | curr :: rest =>
    match rescaleStep prev curr with
    | none => none
    | some sc => (rescaleLoop sc rest).map (sc :: ·)

/-- `rescale_chunks(frames)` (source lines 209-224): the first chunk's
`scaled_value` is its raw `value`; each later chunk is scaled through
`rescaleStep`.  `none` models the uncaught `IndexError` inside the loop. -/
def rescale_chunks (frames : List Frame) : Option (List (List SRow)) :=
  match frames with
  | [] => some []
  | f0 :: rest =>
    let s0 : List SRow := f0.map (fun r => ⟨r.date, r.value, (r.value : ℚ)⟩)
    (rescaleLoop s0 rest).map (s0 :: ·)

/-! ## Validator characterization -/

/-- The first value (`df.iloc[0]["value"]`) of chunk `j` of a chunk set. -/
def headVal (fs : List Frame) (j : Nat) : Int :=
  ((fs.getD j []).headD defaultRow).value

/-- The last value (`df.iloc[-1]["value"]`) of chunk `j` of a chunk set. -/
def lastVal (fs : List Frame) (j : Nat) : Int :=
  ((fs.getD j []).getLastD defaultRow).value

theorem checkEdges_eq_none_iff (total : Nat) :
    ∀ (fs : List Frame) (idx : Nat),
      checkEdges total idx fs = none ↔
        ∀ j, j < fs.length →
          fs.getD j [] ≠ [] ∧ headVal fs j ≠ 0 ∧
            (lastVal fs j = 0 → idx + j = total - 1) := by
  intro fs
  induction fs with
  | nil => intro idx; simp [checkEdges]
  | cons f rest ih =>
    intro idx
    match f with
    | [] =>
      simp only [checkEdges]
      constructor
      · intro h; cases h
      · intro h
        exact absurd (h 0 (by simp)).1 (by simp)
    | r0 :: rs =>
      simp only [checkEdges]
      by_cases hz : r0.value = 0 ∨ (((r0 :: rs).getLastD defaultRow).value = 0 ∧ idx ≠ total - 1)
      · rw [if_pos hz]
        constructor
        · intro h; cases h
        · intro h
          have h0 := h 0 (by simp)
          simp only [headVal, lastVal, List.getD_cons_zero, List.headD_cons, Nat.add_zero] at h0
          rcases hz with hz | ⟨hz, hne⟩
          · exact absurd hz h0.2.1
          · exact absurd (h0.2.2 hz) hne
      · rw [if_neg hz]
        push_neg at hz
        rw [ih (idx + 1)]
        constructor
        · intro h j hj
          match j with
          | 0 =>
            refine ⟨by simp, ?_, ?_⟩
            · simpa [headVal] using hz.1
            · intro hl
              simp only [lastVal, List.getD_cons_zero] at hl
              have := hz.2 hl
              simpa using this
          | j + 1 =>
            have hj' : j < rest.length := by simpa using hj
            have := h j hj'
            simp only [headVal, lastVal, List.getD_cons_succ] at this ⊢
            exact ⟨this.1, this.2.1, fun hl => by
              have := this.2.2 hl; omega⟩
        · intro h j hj
          have := h (j + 1) (by simpa using Nat.succ_lt_succ hj)
          simp only [headVal, lastVal, List.getD_cons_succ] at this ⊢
          exact ⟨this.1, this.2.1, fun hl => by
            have := this.2.2 hl; omega⟩

theorem checkEdges_cases (total : Nat) :
    ∀ (fs : List Frame) (idx : Nat), (∀ f ∈ fs, f ≠ []) →
      checkEdges total idx fs = none ∨ checkEdges total idx fs = some "zero start/end" := by
  intro fs
  induction fs with
  | nil => intro idx _; left; rfl
  | cons f rest ih =>
    intro idx hne
    match f with
    | [] => exact absurd rfl (hne [] (by simp))
    | r0 :: rs =>
      simp only [checkEdges]
      split
      · right; rfl
      · exact ih (idx + 1) (fun g hg => hne g (by simp [hg]))

theorem checkOverlaps_eq_none_iff :
    ∀ fs : List Frame,
      checkOverlaps fs = none ↔
        ∀ i, i + 1 < fs.length → lastVal fs i ≠ 0 ∧ headVal fs (i + 1) ≠ 0 := by
  intro fs
  induction fs with
  | nil => simp [checkOverlaps]
  | cons f1 rest ih =>
    match rest with
    | [] => simp [checkOverlaps]
    | f2 :: rest2 =>
      simp only [checkOverlaps]
      by_cases hz : (f1.getLastD defaultRow).value = 0 ∨ (f2.headD defaultRow).value = 0
      · rw [if_pos hz]
        constructor
        · intro h; cases h
        · intro h
          have h0 := h 0 (by simp)
          simp only [lastVal, headVal, List.getD_cons_zero, List.getD_cons_succ] at h0
          rcases hz with hz | hz
          · exact absurd hz h0.1
          · exact absurd hz (by simpa using h0.2)
      · rw [if_neg hz]
        push_neg at hz
        rw [ih]
        constructor
        · intro h i hi
          match i with
          | 0 =>
            simp only [lastVal, headVal, List.getD_cons_zero, List.getD_cons_succ]
            exact ⟨hz.1, by simpa using hz.2⟩
          | i + 1 =>
            have := h i (by simpa using hi)
            simpa only [lastVal, headVal, List.getD_cons_succ] using this
        · intro h i hi
          have := h (i + 1) (by simpa using Nat.succ_lt_succ hi)
          simpa only [lastVal, headVal, List.getD_cons_succ] using this

/-- Passing the edge loop makes the overlap loop of `has_bad_edges`
unreachable as a rejection: every overlap endpoint is also a chunk edge
already required to be non-zero. -/
theorem checkOverlaps_of_edges_ok (fs : List Frame)
    (h : ∀ j, j < fs.length →
      fs.getD j [] ≠ [] ∧ headVal fs j ≠ 0 ∧ (lastVal fs j = 0 → j = fs.length - 1)) :
    checkOverlaps fs = none := by
  rw [checkOverlaps_eq_none_iff]
  intro i hi
  refine ⟨?_, (h (i + 1) hi).2.1⟩
  intro hlz
  have := (h i (by omega)).2.2 hlz
  omega

theorem has_bad_edges_eq_false_iff (fs : List Frame) :
    has_bad_edges fs = (false, "") ↔
      fs ≠ [] ∧ ∀ j, j < fs.length →
        fs.getD j [] ≠ [] ∧ headVal fs j ≠ 0 ∧
          (lastVal fs j = 0 → j = fs.length - 1) := by
  by_cases hfs : fs = []
  · subst hfs; simp [has_bad_edges]
  · have hne : fs.isEmpty = false := by simpa [List.isEmpty_iff] using hfs
    simp only [has_bad_edges, hne, Bool.false_eq_true, if_false]
    cases h1 : checkEdges fs.length 0 fs with
    | some r =>
      constructor
      · intro h; exact absurd (congrArg Prod.fst h) (by simp)
      · rintro ⟨-, hall⟩
        have hnone : checkEdges fs.length 0 fs = none := by
          rw [checkEdges_eq_none_iff]
          intro j hj
          exact ⟨(hall j hj).1, (hall j hj).2.1, fun hl => by
            have := (hall j hj).2.2 hl; omega⟩
        rw [hnone] at h1; cases h1
    | none =>
      cases h2 : checkOverlaps fs with
      | some r =>
        constructor
        · intro h; exact absurd (congrArg Prod.fst h) (by simp)
        · rintro ⟨-, hall⟩
          have h3 := checkOverlaps_of_edges_ok fs hall
          rw [h3] at h2; cases h2
      | none =>
        constructor
        · intro _
          refine ⟨hfs, ?_⟩
          rw [checkEdges_eq_none_iff] at h1
          intro j hj
          exact ⟨(h1 j hj).1, (h1 j hj).2.1, fun hl => by
            have := (h1 j hj).2.2 hl; omega⟩
        · intro _; rfl

/-- With every chunk non-empty, a zero edge at any forbidden position forces
the exact rejection `(True, "zero start/end")`. -/
theorem has_bad_edges_zero_edge (fs : List Frame) (hne : ∀ f ∈ fs, f ≠ [])
    (hex : ∃ j, j < fs.length ∧
      (headVal fs j = 0 ∨ (lastVal fs j = 0 ∧ j ≠ fs.length - 1))) :
    has_bad_edges fs = (true, "zero start/end") := by
  obtain ⟨j, hj, hcase⟩ := hex
  have hfs : fs.isEmpty = false := by
    cases fs with
    | nil => simp at hj
    | cons a l => rfl
  have hnotnone : checkEdges fs.length 0 fs ≠ none := by
    intro hnone
    rw [checkEdges_eq_none_iff] at hnone
    have := hnone j hj
    rcases hcase with hc | ⟨hc, hne'⟩
    · exact absurd hc this.2.1
    · exact hne' (by have h2 := this.2.2 hc; omega)
  rcases checkEdges_cases fs.length fs 0 hne with h | h
  · exact absurd h hnotnone
  · simp [has_bad_edges, hfs, h]


/-- If `j` is in bounds, `fs.getD j []` is a member of `fs`. -/
theorem getD_mem_of_lt {fs : List Frame} {j : Nat} (hj : j < fs.length) :
    fs.getD j [] ∈ fs := by
  rw [List.getD_eq_getElem _ _ hj]
  exact List.getElem_mem hj

/-! ## Claim C3 -/

/-- C3 counterexample: a single-chunk set whose only chunk begins with value 0
and has no other zero values is rejected by `has_bad_edges` with the zero-edge
reason — the zero-first-value check applies to the last chunk as well, so the
claimed exemption of the final chunk's first value does not hold. -/
theorem c3_last_chunk_zero_start_rejected :
    has_bad_edges [[⟨0, 0⟩, ⟨1, 5⟩]] = (true, "zero start/end") := by rfl

/-- C3 (amended): the Edge Validator's zero-edge exemption covers only the
final chunk's trailing value.  A chunk set with every chunk non-empty, every
first value non-zero and every non-final last value non-zero is not rejected
(its final chunk's last value may be 0); but a zero first value of any chunk,
including the final one, is rejected. -/
theorem c3_amended_only_trailing_zero_exempt :
    (∀ fs : List Frame, fs ≠ [] →
      (∀ f ∈ fs, f ≠ []) →
      (∀ j, j < fs.length → headVal fs j ≠ 0) →
      (∀ j, j < fs.length → j ≠ fs.length - 1 → lastVal fs j ≠ 0) →
      has_bad_edges fs = (false, "")) ∧
    (∀ fs : List Frame, (∀ f ∈ fs, f ≠ []) → fs ≠ [] →
      headVal fs (fs.length - 1) = 0 →
      (has_bad_edges fs).1 = true) := by
  constructor
  · intro fs hfs hne hhead hlast
    rw [has_bad_edges_eq_false_iff]
    refine ⟨hfs, fun j hj => ⟨hne _ (getD_mem_of_lt hj), hhead j hj, fun hl => ?_⟩⟩
    by_contra hc
    exact hlast j hj hc hl
  · intro fs hne hfs hz
    have hlen : 0 < fs.length := List.length_pos.mpr hfs
    have h := has_bad_edges_zero_edge fs hne ⟨fs.length - 1, by omega, Or.inl hz⟩
    rw [h]

/-- C3 amended witness: a two-chunk set whose final chunk ends in 0 is
accepted; the single-chunk set starting with 0 is rejected. -/
theorem c3_amended_witness :
    has_bad_edges [[⟨0, 2⟩, ⟨1, 3⟩], [⟨1, 3⟩, ⟨2, 0⟩]] = (false, "") ∧
    (has_bad_edges [[⟨0, 0⟩, ⟨1, 5⟩]]).1 = true := by
  constructor
  · exact c3_amended_only_trailing_zero_exempt.1 _ (by simp) (by decide)
      (by intro j hj; have h2 : j < 2 := by simpa using hj
          interval_cases j <;> decide)
      (by intro j hj hne
          have h2 : j < 2 := by simpa using hj
          have h3 : j ≠ 1 := by simpa using hne
          interval_cases j
          · decide
          · exact absurd rfl h3)
  · exact c3_amended_only_trailing_zero_exempt.2 _ (by decide) (by simp) (by decide)

/-! ## Claim C7 -/

/-- C7: `has_bad_edges` (i) rejects, with the "zero start/end" reason, every
chunk set (all chunks non-empty) in which some non-final chunk's first or last
value is 0; (ii) rejects every set in which a shared overlap endpoint — the
last value of a chunk or the first value of its successor — is 0, regardless
of position; (iii) accepts an otherwise-valid set in which only the final
chunk's last value is 0. -/
theorem c7_validator_zero_edge_rules :
    (∀ fs : List Frame, (∀ f ∈ fs, f ≠ []) →
      (∃ j, j < fs.length ∧ j ≠ fs.length - 1 ∧ (headVal fs j = 0 ∨ lastVal fs j = 0)) →
      has_bad_edges fs = (true, "zero start/end")) ∧
    (∀ fs : List Frame, (∀ f ∈ fs, f ≠ []) →
      (∃ i, i + 1 < fs.length ∧ (lastVal fs i = 0 ∨ headVal fs (i + 1) = 0)) →
      (has_bad_edges fs).1 = true) ∧
    (∀ fs : List Frame, fs ≠ [] → (∀ f ∈ fs, f ≠ []) →
      (∀ j, j < fs.length → headVal fs j ≠ 0) →
      (∀ j, j < fs.length → j ≠ fs.length - 1 → lastVal fs j ≠ 0) →
      has_bad_edges fs = (false, "")) := by
  refine ⟨?_, ?_, ?_⟩
  · rintro fs hne ⟨j, hj, hjne, hcase⟩
    refine has_bad_edges_zero_edge fs hne ⟨j, hj, ?_⟩
    rcases hcase with hc | hc
    · exact Or.inl hc
    · exact Or.inr ⟨hc, hjne⟩
  · rintro fs hne ⟨i, hi, hcase⟩
    rcases hcase with hc | hc
    · have h := has_bad_edges_zero_edge fs hne ⟨i, by omega, Or.inr ⟨hc, by omega⟩⟩
      rw [h]
    · have h := has_bad_edges_zero_edge fs hne ⟨i + 1, hi, Or.inl hc⟩
      rw [h]
  · intro fs hfs hne hhead hlast
    rw [has_bad_edges_eq_false_iff]
    refine ⟨hfs, fun j hj => ⟨hne _ (getD_mem_of_lt hj), hhead j hj, fun hl => ?_⟩⟩
    by_contra hc
    exact hlast j hj hc hl

/-- C7 witness: concrete instances of all three validator rules. -/
theorem c7_validator_zero_edge_rules_witness :
    has_bad_edges [[⟨0, 0⟩, ⟨1, 2⟩], [⟨1, 2⟩, ⟨2, 3⟩]] = (true, "zero start/end") ∧
    (has_bad_edges [[⟨0, 1⟩, ⟨1, 0⟩], [⟨1, 2⟩]]).1 = true ∧
    has_bad_edges [[⟨0, 1⟩, ⟨1, 2⟩], [⟨1, 2⟩, ⟨2, 0⟩]] = (false, "") := by
  refine ⟨?_, ?_, ?_⟩
  · exact c7_validator_zero_edge_rules.1 _ (by decide) ⟨0, by decide⟩
  · exact c7_validator_zero_edge_rules.2.1 _ (by decide) ⟨0, by decide⟩
  · exact c7_validator_zero_edge_rules.2.2 _ (by simp) (by decide)
      (by intro j hj; have h2 : j < 2 := by simpa using hj
          interval_cases j <;> decide)
      (by intro j hj hne
          have h2 : j < 2 := by simpa using hj
          have h3 : j ≠ 1 := by simpa using hne
          interval_cases j
          · decide
          · exact absurd rfl h3)


/-! ## Claim C5 -/

/-- The first window produced for a non-empty range starts at `start` and ends
at `min (start + (CHUNK_DAYS - 1)) end_`. -/
theorem generate_chunks_head (start end_ : Int) (h : start ≤ end_) :
    (generate_chunks start end_).head? =
      some (start, min (start + (CHUNK_DAYS - 1)) end_) := by
  rw [generate_chunks, dif_pos h]
  by_cases h2 : min (start + (CHUNK_DAYS - 1)) end_ ≥ end_
  · rw [dif_pos h2]; rfl
  · rw [dif_neg h2]; rfl

/-- The window-sequence properties claimed for the planner: every window lies
inside `[start, end_]`, each next window starts at the previous window's end
(sharing exactly the one overlap day) with strictly increasing starts, and the
final window ends exactly at `end_`. -/
def PlannerSpec (start end_ : Int) : Prop :=
  (∀ w ∈ generate_chunks start end_, start ≤ w.1 ∧ w.1 ≤ w.2 ∧ w.2 ≤ end_) ∧
  List.Chain' (fun a b => b.1 = a.2 ∧ a.1 < b.1) (generate_chunks start end_) ∧
  List.Pairwise (fun a b : Int × Int => a.1 < b.1) (generate_chunks start end_) ∧
  (∃ w, (generate_chunks start end_).getLast? = some w ∧ w.2 = end_)

theorem generate_chunks_spec_aux :
    ∀ (k : Nat) (start end_ : Int), (end_ - start).toNat = k → start ≤ end_ →
      (∀ w ∈ generate_chunks start end_, start ≤ w.1 ∧ w.1 ≤ w.2 ∧ w.2 ≤ end_) ∧
      List.Chain' (fun a b => b.1 = a.2 ∧ a.1 < b.1) (generate_chunks start end_) ∧
      (∃ w, (generate_chunks start end_).getLast? = some w ∧ w.2 = end_) := by
  intro k
  induction k using Nat.strong_induction_on with
  | _ k ih =>
    intro start end_ hk h
    have h270 : CHUNK_DAYS = 270 := rfl
    have h1o : OVERLAP_DAYS = 1 := rfl
    rw [generate_chunks, dif_pos h]
    by_cases h2 : min (start + (CHUNK_DAYS - 1)) end_ ≥ end_
    · rw [dif_pos h2]
      have hEnd : min (start + (CHUNK_DAYS - 1)) end_ = end_ :=
        le_antisymm (min_le_right _ _) h2
      rw [hEnd]
      refine ⟨?_, ?_, ?_⟩
      · intro w hw
        simp only [List.mem_singleton] at hw
        subst hw
        exact ⟨le_refl start, h, le_refl end_⟩
      · simp
      · exact ⟨(start, end_), by simp, rfl⟩
    · rw [dif_neg h2]
      have hlt : min (start + (CHUNK_DAYS - 1)) end_ < end_ := lt_of_not_ge h2
      have hmin : min (start + (CHUNK_DAYS - 1)) end_ = start + (CHUNK_DAYS - 1) := by
        rcases le_total (start + (CHUNK_DAYS - 1)) end_ with hle | hle
        · exact min_eq_left hle
        · rw [min_eq_right hle] at hlt
          exact absurd hlt (lt_irrefl end_)
      have hov : min (start + (CHUNK_DAYS - 1)) end_ - (OVERLAP_DAYS - 1) =
          start + (CHUNK_DAYS - 1) := by
        rw [hmin, h1o]; ring
      have hlt2 : start + (CHUNK_DAYS - 1) < end_ := by rw [hmin] at hlt; exact hlt
      have hle2 : start + (CHUNK_DAYS - 1) ≤ end_ := hlt2.le
      rw [hov, hmin]
      have hmeas : (end_ - (start + (CHUNK_DAYS - 1))).toNat < k := by
        subst hk
        rw [h270] at hlt2 ⊢
        omega
      obtain ⟨ihmem, ihchain, ihlast⟩ := ih _ hmeas (start + (CHUNK_DAYS - 1)) end_ rfl hle2
      have hhead := generate_chunks_head (start + (CHUNK_DAYS - 1)) end_ hle2
      refine ⟨?_, ?_, ?_⟩
      · intro w hw
        rcases List.mem_cons.mp hw with hw | hw
        · subst hw
          refine ⟨le_refl _, ?_, hle2⟩
          rw [h270]; omega
        · have hm := ihmem w hw
          have h5 : start ≤ start + (CHUNK_DAYS - 1) := by rw [h270]; omega
          exact ⟨le_trans h5 hm.1, hm.2.1, hm.2.2⟩
      · rw [List.chain'_cons']
        refine ⟨?_, ihchain⟩
        intro b hb
        rw [hhead] at hb
        simp only [Option.mem_def, Option.some.injEq] at hb
        subst hb
        refine ⟨rfl, ?_⟩
        rw [h270]; omega
      · obtain ⟨w, hwl, hw2⟩ := ihlast
        refine ⟨w, ?_, hw2⟩
        cases hr : generate_chunks (start + (CHUNK_DAYS - 1)) end_ with
        | nil => rw [hr] at hhead; cases hhead
        | cons r0 rest2 =>
          rw [hr] at hwl
          rw [List.getLast?_cons_cons]
          exact hwl

/-- C5: for every `start ≤ end`, with `CHUNK_DAYS = 270` and
`OVERLAP_DAYS = 1`, every generated window satisfies
`start ≤ window.start ≤ window.end ≤ end`; each consecutive pair shares
exactly one calendar day (the next window's start equals the previous
window's end) with strictly increasing starts; and the final window's end
equals `end`. -/
theorem c5_generate_chunks_windows (start end_ : Int) (h : start ≤ end_) :
    PlannerSpec start end_ := by
  obtain ⟨hmem, hchain, hlast⟩ :=
    generate_chunks_spec_aux (end_ - start).toNat start end_ rfl h
  refine ⟨hmem, hchain, ?_, hlast⟩
  haveI : IsTrans (Int × Int) (fun a b => a.1 < b.1) := ⟨fun _ _ _ => lt_trans⟩
  exact List.chain'_iff_pairwise.mp (List.Chain'.imp (fun a b hab => hab.2) hchain)

/-- C5 witness: the planner properties at the concrete range `[0, 600]`
(three windows: `(0,269), (269,538), (538,600)`). -/
theorem c5_generate_chunks_windows_witness : (0 : Int) ≤ 600 ∧ PlannerSpec 0 600 :=
  ⟨by norm_num, c5_generate_chunks_windows 0 600 (by norm_num)⟩


/-! ## Rescaler characterization -/

/-- The uniform scaling `curr["scaled_value"] = curr["value"] * ratio` applied
to a whole chunk. -/
def scaleFrame (ratio : ℚ) (f : Frame) : List SRow :=
  f.map (fun r => ⟨r.date, r.value, (r.value : ℚ) * ratio⟩)

/-- The `scaled_value` column added to the first chunk
(`scaled[0]["scaled_value"] = scaled[0]["value"]`). -/
def firstScaled (f : Frame) : List SRow :=
  f.map (fun r => ⟨r.date, r.value, (r.value : ℚ)⟩)

/-- The ratio computed by one rescale iteration, written with the resolved
lookups: `prev_val` is the first row of `prev` matching the overlap day
(`.values[0]` of the date selection) and `curr_val` is the first row of `curr`
matching it, which is `curr.iloc[0]` itself. -/
def codeRatio (prev : List SRow) (curr : Frame) : ℚ :=
  let d := (curr.headD defaultRow).date
  let p := ((prev.filter (fun r => r.date = d)).headD defaultSRow).scaled
  let c := (curr.headD defaultRow).value
  if c = 0 then 1 else p / (c : ℚ)

/-- When the previous chunk has a row at the overlap day, one rescale
iteration succeeds and scales the whole chunk by `codeRatio`. -/
theorem rescaleStep_eq (prev : List SRow) (curr : Frame) (h0 : curr ≠ [])
    (hm : prev.filter (fun r => r.date = (curr.headD defaultRow).date) ≠ []) :
    rescaleStep prev curr = some (scaleFrame (codeRatio prev curr) curr) := by
  match curr with
  | c0 :: cs =>
    simp only [List.headD_cons] at hm
    obtain ⟨p0, ps, hpf⟩ : ∃ p0 ps, prev.filter (fun r => r.date = c0.date) = p0 :: ps := by
      cases hpf : prev.filter (fun r => r.date = c0.date) with
      | nil => exact absurd hpf hm
      | cons p0 ps => exact ⟨p0, ps, rfl⟩
    have hcf : (c0 :: cs).filter (fun r => r.date = c0.date) =
        c0 :: cs.filter (fun r => r.date = c0.date) := by
      rw [List.filter_cons]
      simp
    simp [rescaleStep, codeRatio, scaleFrame, hpf, hcf]

/-- The lookups of the rescale loop all succeed: each chunk in turn has, in
the previously scaled chunk, at least one row at its overlap day.  `prev` is
the scaled form of the chunk before the first element of the list. -/
def MatchChain (prev : List SRow) : List Frame → Prop
  | [] => True
  | curr :: rest =>
    prev.filter (fun r => r.date = (curr.headD defaultRow).date) ≠ [] ∧
      MatchChain (scaleFrame (codeRatio prev curr) curr) rest

theorem rescaleLoop_spec :
    ∀ (rest : List Frame) (prev : List SRow),
      (∀ f ∈ rest, f ≠ []) →
      MatchChain prev rest →
      ∃ out, rescaleLoop prev rest = some out ∧
        out.length = rest.length ∧
        ∀ i, i < rest.length →
          out.getD i [] =
            scaleFrame
              (codeRatio (if i = 0 then prev else out.getD (i - 1) []) (rest.getD i []))
              (rest.getD i []) := by
  intro rest
  induction rest with
  | nil =>
    intro prev _ _
    exact ⟨[], rfl, rfl, fun i hi => absurd hi (by simp)⟩
  | cons curr rest2 ih =>
    intro prev hne hmc
    have hstep := rescaleStep_eq prev curr (hne curr (by simp)) hmc.1
    obtain ⟨out2, hloop, hlen, hidx⟩ :=
      ih (scaleFrame (codeRatio prev curr) curr) (fun f hf => hne f (by simp [hf])) hmc.2
    refine ⟨scaleFrame (codeRatio prev curr) curr :: out2, ?_, by simp [hlen], ?_⟩
    · simp only [rescaleLoop, hstep, hloop]
      rfl
    · intro i hi
      match i with
      | 0 => simp
      | j + 1 =>
        have hj : j < rest2.length := by simpa using hi
        have := hidx j hj
        simp only [List.getD_cons_succ]
        rw [this]
        congr 1
        match j with
        | 0 => simp
        | m + 1 => simp

/-- The lookup precondition for the whole of `rescale_chunks`. -/
def RescaleDefined (fs : List Frame) : Prop :=
  match fs with
  | [] => True
  | f0 :: rest => MatchChain (firstScaled f0) rest

/-- Under the lookup precondition, `rescale_chunks` succeeds: the first chunk
is scaled to itself and every later chunk is uniformly scaled by the ratio
taken between the previous scaled chunk and its own first row. -/
theorem rescale_chunks_spec (fs : List Frame) (hne : ∀ f ∈ fs, f ≠ [])
    (hmc : RescaleDefined fs) :
    ∃ out, rescale_chunks fs = some out ∧ out.length = fs.length ∧
      out.getD 0 [] = firstScaled (fs.getD 0 []) ∧
      ∀ i, i + 1 < fs.length →
        out.getD (i + 1) [] =
          scaleFrame (codeRatio (out.getD i []) (fs.getD (i + 1) []))
            (fs.getD (i + 1) []) := by
  match fs with
  | [] => exact ⟨[], rfl, rfl, rfl, fun i hi => absurd hi (by simp)⟩
  | f0 :: rest =>
    obtain ⟨out2, hloop, hlen, hidx⟩ :=
      rescaleLoop_spec rest (firstScaled f0) (fun f hf => hne f (by simp [hf])) hmc
    refine ⟨firstScaled f0 :: out2, ?_, by simp [hlen], by simp [firstScaled], ?_⟩
    · have hfold : List.map
          (fun r => ({ date := r.date, value := r.value, scaled := (r.value : ℚ) } : SRow)) f0 =
          firstScaled f0 := rfl
      simp only [rescale_chunks, hfold]
      rw [hloop]
      rfl
    · intro i hi
      have hi2 : i < rest.length := by simpa using hi
      have := hidx i hi2
      simp only [List.getD_cons_succ]
      rw [this]
      congr 1
      match i with
      | 0 => simp
      | m + 1 => simp


/-! ## Alignment: from validator acceptance to rescale success -/

/-- Every chunk of an accepted set is non-empty. -/
theorem frames_nonempty_of_ok {fs : List Frame} (h : has_bad_edges fs = (false, "")) :
    ∀ f ∈ fs, f ≠ [] := by
  intro f hf
  obtain ⟨i, hi, rfl⟩ := List.mem_iff_getElem.mp hf
  have h2 := ((has_bad_edges_eq_false_iff fs).mp h).2 i hi
  rw [List.getD_eq_getElem _ _ hi] at h2
  exact h2.1

/-- Date alignment between consecutive chunks: each chunk after the first has
its first date present among the previous chunk's dates (so the rescaler's
overlap lookup in the previous chunk finds at least one row). -/
@[reducible] def DatesAligned (fs : List Frame) : Prop :=
  List.Chain' (fun a b => ∃ r ∈ a, r.date = (b.headD defaultRow).date) fs

theorem matchChain_of_aligned :
    ∀ (rest : List Frame) (a : Frame) (prev : List SRow),
      (∀ r ∈ a, ∃ q ∈ prev, q.date = r.date) →
      List.Chain' (fun x y => ∃ r ∈ x, r.date = (y.headD defaultRow).date) (a :: rest) →
      MatchChain prev rest := by
  intro rest
  induction rest with
  | nil => intro a prev _ _; trivial
  | cons curr rest2 ih =>
    intro a prev hcov hch
    rw [List.chain'_cons] at hch
    obtain ⟨⟨r, hr, hrd⟩, hch2⟩ := hch
    obtain ⟨q, hq, hqd⟩ := hcov r hr
    constructor
    · exact List.ne_nil_of_mem (List.mem_filter.mpr ⟨hq, by simp [hqd, hrd]⟩)
    · refine ih curr (scaleFrame (codeRatio prev curr) curr) ?_ hch2
      intro r2 hr2
      exact ⟨⟨r2.date, r2.value, (r2.value : ℚ) * codeRatio prev curr⟩,
        List.mem_map_of_mem _ hr2, rfl⟩

theorem rescaleDefined_of_aligned {fs : List Frame} (ha : DatesAligned fs) :
    RescaleDefined fs := by
  match fs with
  | [] => trivial
  | f0 :: rest =>
    refine matchChain_of_aligned rest f0 (firstScaled f0) ?_ ha
    intro r hr
    exact ⟨⟨r.date, r.value, (r.value : ℚ)⟩, List.mem_map_of_mem _ hr, rfl⟩

/-! ## Claim C6 -/

/-- C6 counterexample: a chunk sequence accepted by the Validator on which
rescaling computes nothing at all — the overlap lookup crashes (an uncaught
`IndexError`), so the claimed universal description of `rescale_chunks` over
validator-accepted sequences is false. -/
theorem c6_accepted_sequence_rescale_crashes :
    has_bad_edges [[⟨0, 5⟩], [⟨7, 5⟩]] = (false, "") ∧
    rescale_chunks [[⟨0, 5⟩], [⟨7, 5⟩]] = none := by
  constructor
  · rfl
  · rfl

/-- C6 (amended): for every chunk sequence accepted by the Validator in which
each subsequent chunk's first date occurs among the previous chunk's dates,
rescaling succeeds; the first chunk's `scaled_value` equals its raw value;
every subsequent chunk `i` is uniformly scaled by a single ratio, and that
ratio is the already-scaled value of the first row of chunk `i-1` matching the
overlap day, divided by chunk `i`'s raw value at that day (its first row) —
in particular with prior scaled value 10 and current raw value 5, the ratio is
2 and every scaled value in the current chunk is twice its raw value. -/
theorem c6_rescale_chain_link :
    (∀ fs : List Frame, has_bad_edges fs = (false, "") → DatesAligned fs →
      ∃ out, rescale_chunks fs = some out ∧ out.length = fs.length ∧
        out.getD 0 [] = firstScaled (fs.getD 0 []) ∧
        (∀ i, i + 1 < fs.length →
          out.getD (i + 1) [] =
            scaleFrame (codeRatio (out.getD i []) (fs.getD (i + 1) []))
              (fs.getD (i + 1) [])) ∧
        (∀ i, i + 1 < fs.length →
          codeRatio (out.getD i []) (fs.getD (i + 1) []) =
            (((out.getD i []).filter
                (fun r => r.date = ((fs.getD (i + 1) []).headD defaultRow).date)).headD
                  defaultSRow).scaled /
              (((fs.getD (i + 1) []).headD defaultRow).value : ℚ))) ∧
    rescale_chunks [[⟨0, 10⟩], [⟨0, 5⟩, ⟨1, 7⟩]] =
      some [[⟨0, 10, 10⟩], [⟨0, 5, 10⟩, ⟨1, 7, 14⟩]] := by
  constructor
  · intro fs hok hal
    have hne := frames_nonempty_of_ok hok
    obtain ⟨out, hres, hlen, h0, hsucc⟩ :=
      rescale_chunks_spec fs hne (rescaleDefined_of_aligned hal)
    refine ⟨out, hres, hlen, h0, hsucc, ?_⟩
    intro i hi
    have hhv := (((has_bad_edges_eq_false_iff fs).mp hok).2 (i + 1) hi).2.1
    simp only [headVal] at hhv
    simp only [codeRatio]
    rw [if_neg hhv]
  · norm_num [rescale_chunks, rescaleLoop, rescaleStep, firstScaled, scaleFrame]

/-- C6 amended witness: the two-chunk sequence with overlap values 10
(prior scaled) and 5 (current raw). -/
theorem c6_rescale_chain_link_witness :
    has_bad_edges [[⟨0, 10⟩], [⟨0, 5⟩, ⟨1, 7⟩]] = (false, "") ∧
    DatesAligned [[⟨0, 10⟩], [⟨0, 5⟩, ⟨1, 7⟩]] ∧
    (∃ out, rescale_chunks [[⟨0, 10⟩], [⟨0, 5⟩, ⟨1, 7⟩]] = some out ∧
      out.length = ([[⟨0, 10⟩], [⟨0, 5⟩, ⟨1, 7⟩]] : List Frame).length ∧
      out.getD 0 [] = firstScaled (([[⟨0, 10⟩], [⟨0, 5⟩, ⟨1, 7⟩]] : List Frame).getD 0 []) ∧
      (∀ i, i + 1 < ([[⟨0, 10⟩], [⟨0, 5⟩, ⟨1, 7⟩]] : List Frame).length →
        out.getD (i + 1) [] =
          scaleFrame
            (codeRatio (out.getD i []) (([[⟨0, 10⟩], [⟨0, 5⟩, ⟨1, 7⟩]] : List Frame).getD (i + 1) []))
            (([[⟨0, 10⟩], [⟨0, 5⟩, ⟨1, 7⟩]] : List Frame).getD (i + 1) [])) ∧
      (∀ i, i + 1 < ([[⟨0, 10⟩], [⟨0, 5⟩, ⟨1, 7⟩]] : List Frame).length →
        codeRatio (out.getD i []) (([[⟨0, 10⟩], [⟨0, 5⟩, ⟨1, 7⟩]] : List Frame).getD (i + 1) []) =
          (((out.getD i []).filter
              (fun r => r.date =
                ((([[⟨0, 10⟩], [⟨0, 5⟩, ⟨1, 7⟩]] : List Frame).getD (i + 1) []).headD
                  defaultRow).date)).headD defaultSRow).scaled /
            (((([[⟨0, 10⟩], [⟨0, 5⟩, ⟨1, 7⟩]] : List Frame).getD (i + 1) []).headD
              defaultRow).value : ℚ))) :=
  ⟨by decide, List.chain'_pair.mpr ⟨⟨0, 10⟩, by simp, rfl⟩,
    c6_rescale_chain_link.1 _ (by decide) (List.chain'_pair.mpr ⟨⟨0, 10⟩, by simp, rfl⟩)⟩

/-! ## Claim C10 -/

/-- C10: there is a chunk sequence accepted by `has_bad_edges` (no empty
chunk, no zero edge or overlap value) in which the first date of chunk 1 does
not occur among the dates of chunk 0, and on it the rescaler's overlap lookup
finds no row and the unguarded `.values[0]` access fails — the indexing-error
branch of `rescale_chunks` is reachable under the Validator's precondition. -/
theorem c10_validator_misses_date_alignment :
    ∃ fs : List Frame, has_bad_edges fs = (false, "") ∧
      (∀ r ∈ fs.getD 0 [], r.date ≠ ((fs.getD 1 []).headD defaultRow).date) ∧
      rescale_chunks fs = none :=
  ⟨[[⟨0, 3⟩], [⟨9, 4⟩]], by decide, by decide, by decide⟩


/-! ## Claim C8 -/

theorem chain'_getD {α : Type} {R : α → α → Prop} {l : List α} (d : α)
    (h : List.Chain' R l) :
    ∀ i, i + 1 < l.length → R (l.getD i d) (l.getD (i + 1) d) := by
  intro i hi
  rw [List.getD_eq_getElem l d (by omega : i < l.length), List.getD_eq_getElem l d hi]
  have h2 := List.chain'_iff_get.mp h i (by omega)
  simpa using h2

theorem getLastD_mem {α : Type} (l : List α) (d : α) (h : l ≠ []) :
    l.getLastD d ∈ l := by
  rw [List.getLastD_eq_getLast? d l]
  cases hq : l.getLast? with
  | none => exact absurd (List.getLast?_eq_none_iff.mp hq) h
  | some y =>
    simp only [Option.getD_some]
    obtain ⟨h2, hy⟩ := List.mem_getLast?_eq_getLast (show y ∈ l.getLast? by rw [hq]; rfl)
    rw [hy]
    exact List.getLast_mem h2

theorem getLastD_map (g : TRow → SRow) (l : List TRow) (h : l ≠ []) :
    (l.map g).getLastD defaultSRow = g (l.getLastD defaultRow) := by
  rw [List.getLastD_eq_getLast?, List.getLastD_eq_getLast?, List.getLast?_map]
  cases hq : l.getLast? with
  | none => exact absurd (List.getLast?_eq_none_iff.mp hq) h
  | some y => rfl

/-- When the overlap day occurs exactly once in the previous chunk, at its
last row, the rescaler's first-match lookup in the (scaled image of the)
previous chunk resolves to its last row. -/
theorem map_boundary (a b : Frame) (g : TRow → SRow)
    (hg : ∀ r, (g r).date = r.date)
    (ha : a ≠ [])
    (hd : (b.headD defaultRow).date = (a.getLastD defaultRow).date)
    (hflen : (a.filter (fun r => r.date = (b.headD defaultRow).date)).length = 1) :
    ((a.map g).filter (fun sr => sr.date = (b.headD defaultRow).date)).headD defaultSRow
      = g (a.getLastD defaultRow) := by
  have hmem : a.getLastD defaultRow ∈ a.filter (fun r => r.date = (b.headD defaultRow).date) :=
    List.mem_filter.mpr ⟨getLastD_mem a defaultRow ha,
      by simp only [decide_eq_true_eq]; exact hd.symm⟩
  obtain ⟨x, hx⟩ := List.length_eq_one.mp hflen
  have hxl : x = a.getLastD defaultRow := by
    rw [hx] at hmem
    exact (List.mem_singleton.mp hmem).symm
  have hpe : ((fun sr => decide (sr.date = (b.headD defaultRow).date)) ∘ g) =
      (fun r => decide (r.date = (b.headD defaultRow).date)) := by
    funext r
    simp [Function.comp, hg]
  have hfm : (a.map g).filter (fun sr => sr.date = (b.headD defaultRow).date) =
      (a.filter (fun r => r.date = (b.headD defaultRow).date)).map g := by
    rw [List.filter_map, hpe]
  rw [hfm, hx, hxl]
  rfl

/-- One boundary of the scaled output: the previous chunk's (image) last row
and the next chunk's scaled first row agree in date and in scaled value. -/
theorem boundary_step (a b : Frame) (g : TRow → SRow)
    (hg : ∀ r, (g r).date = r.date)
    (ha : a ≠ []) (hb : b ≠ [])
    (hd : (b.headD defaultRow).date = (a.getLastD defaultRow).date)
    (hflen : (a.filter (fun r => r.date = (b.headD defaultRow).date)).length = 1)
    (hcnz : (b.headD defaultRow).value ≠ 0) :
    ((a.map g).getLastD defaultSRow).date =
        ((scaleFrame (codeRatio (a.map g) b) b).headD defaultSRow).date ∧
    ((a.map g).getLastD defaultSRow).scaled =
        ((scaleFrame (codeRatio (a.map g) b) b).headD defaultSRow).scaled := by
  have hlastmap := getLastD_map g a ha
  have hfilter := map_boundary a b g hg ha hd hflen
  have hbh : (scaleFrame (codeRatio (a.map g) b) b).headD defaultSRow =
      ⟨(b.headD defaultRow).date, (b.headD defaultRow).value,
        ((b.headD defaultRow).value : ℚ) * codeRatio (a.map g) b⟩ := by
    match b, hb with
    | b0 :: bs, _ => rfl
  have hratio : codeRatio (a.map g) b =
      (g (a.getLastD defaultRow)).scaled / (((b.headD defaultRow).value : Int) : ℚ) := by
    simp only [codeRatio]
    rw [if_neg hcnz, hfilter]
  constructor
  · rw [hlastmap, hbh, hg, hd]
  · rw [hlastmap, hbh, hratio]
    have hcq : (((b.headD defaultRow).value : Int) : ℚ) ≠ 0 := Int.cast_ne_zero.mpr hcnz
    rw [eq_comm, mul_comm]
    exact div_mul_cancel₀ _ hcq

/-- Overlap alignment between consecutive chunks: each chunk after the first
starts on the calendar day on which the previous chunk ends, and that day
occurs exactly once in the previous chunk (at its last row). -/
@[reducible] def OverlapAligned (fs : List Frame) : Prop :=
  List.Chain' (fun a b =>
    (b.headD defaultRow).date = (a.getLastD defaultRow).date ∧
    (a.filter (fun r => r.date = (b.headD defaultRow).date)).length = 1) fs

theorem datesAligned_of_overlapAligned {fs : List Frame} (h : OverlapAligned fs) :
    DatesAligned fs := by
  refine List.Chain'.imp ?_ h
  intro a b hab
  obtain ⟨x, hx⟩ := List.length_eq_one.mp hab.2
  have hm : x ∈ a.filter (fun r => r.date = (b.headD defaultRow).date) := by
    rw [hx]; simp
  have h2 := List.mem_filter.mp hm
  exact ⟨x, h2.1, by simpa using h2.2⟩

/-- C8 counterexample: a chunk sequence accepted by the Validator in which
the overlap day (the last date of chunk 0 and the first date of chunk 1) also
occurs at an earlier row of chunk 0; the rescaler's first-match lookup picks
that earlier row, so the two output occurrences of the overlap day have
different scaled values (5 and 3), contradicting the claimed equality. -/
theorem c8_overlap_day_scaled_values_differ :
    has_bad_edges [[⟨1, 3⟩, ⟨2, 4⟩, ⟨1, 5⟩], [⟨1, 2⟩, ⟨3, 6⟩]] = (false, "") ∧
    rescale_chunks [[⟨1, 3⟩, ⟨2, 4⟩, ⟨1, 5⟩], [⟨1, 2⟩, ⟨3, 6⟩]] =
      some [[⟨1, 3, 3⟩, ⟨2, 4, 4⟩, ⟨1, 5, 5⟩], [⟨1, 2, 3⟩, ⟨3, 6, 9⟩]] ∧
    ((([[⟨1, 3, 3⟩, ⟨2, 4, 4⟩, ⟨1, 5, 5⟩], [⟨1, 2, 3⟩, ⟨3, 6, 9⟩]] :
        List (List SRow)).getD 0 []).getLastD defaultSRow).date =
      ((([[⟨1, 3, 3⟩, ⟨2, 4, 4⟩, ⟨1, 5, 5⟩], [⟨1, 2, 3⟩, ⟨3, 6, 9⟩]] :
        List (List SRow)).getD 1 []).headD defaultSRow).date ∧
    ((([[⟨1, 3, 3⟩, ⟨2, 4, 4⟩, ⟨1, 5, 5⟩], [⟨1, 2, 3⟩, ⟨3, 6, 9⟩]] :
        List (List SRow)).getD 0 []).getLastD defaultSRow).scaled ≠
      ((([[⟨1, 3, 3⟩, ⟨2, 4, 4⟩, ⟨1, 5, 5⟩], [⟨1, 2, 3⟩, ⟨3, 6, 9⟩]] :
        List (List SRow)).getD 1 []).headD defaultSRow).scaled := by
  refine ⟨rfl, ?_, rfl, ?_⟩
  · norm_num [rescale_chunks, rescaleLoop, rescaleStep, firstScaled, scaleFrame]
  · show (5 : ℚ) ≠ (3 : ℚ)
    norm_num

/-- C8 (amended): for every chunk sequence accepted by the Validator in which
each chunk's first date equals the previous chunk's last date and occurs
exactly once in the previous chunk, rescaling succeeds, every chunk keeps its
row count (so the concatenated output retains both copies of each overlap
day, with no deduplication), and each overlap day's two occurrences — the
last point of chunk `i` and the first point of chunk `i+1` — agree in date
and in scaled value. -/
theorem c8_overlap_day_duplicated_consistent :
    ∀ fs : List Frame, has_bad_edges fs = (false, "") → OverlapAligned fs →
      ∃ out, rescale_chunks fs = some out ∧
        out.map List.length = fs.map List.length ∧
        ∀ i, i + 1 < fs.length →
          ((out.getD i []).getLastD defaultSRow).date =
            ((out.getD (i + 1) []).headD defaultSRow).date ∧
          ((out.getD i []).getLastD defaultSRow).scaled =
            ((out.getD (i + 1) []).headD defaultSRow).scaled := by
  intro fs hok hoa
  have hne := frames_nonempty_of_ok hok
  have hiff := (has_bad_edges_eq_false_iff fs).mp hok
  obtain ⟨out, hres, hlen, h0, hsucc⟩ :=
    rescale_chunks_spec fs hne (rescaleDefined_of_aligned (datesAligned_of_overlapAligned hoa))
  refine ⟨out, hres, ?_, ?_⟩
  · refine List.ext_getElem (by simp [hlen]) ?_
    intro i h1 h2
    have hi : i < fs.length := by simpa using h2
    have hlin : (out.getD i []).length = (fs.getD i []).length := by
      match i with
      | 0 => rw [h0]; simp [firstScaled]
      | j + 1 =>
        rw [hsucc j (by simpa using hi)]
        simp [scaleFrame]
    rw [List.getD_eq_getElem out [] (by simpa [hlen] using hi),
        List.getD_eq_getElem fs [] hi] at hlin
    simpa using hlin
  · intro i hi
    obtain ⟨hdate, hflen⟩ := chain'_getD ([] : Frame) hoa i hi
    have hstats := hiff.2 (i + 1) hi
    have hbnz : fs.getD (i + 1) [] ≠ [] := hstats.1
    have hcnz : ((fs.getD (i + 1) []).headD defaultRow).value ≠ 0 := by
      have h3 := hstats.2.1
      simpa [headVal] using h3
    have hanz : fs.getD i [] ≠ [] := (hiff.2 i (by omega)).1
    have hB := hsucc i hi
    rw [hB]
    cases i with
    | zero =>
      rw [h0]
      exact boundary_step (fs.getD 0 []) (fs.getD 1 [])
        (fun r => ⟨r.date, r.value, (r.value : ℚ)⟩) (fun r => rfl)
        hanz hbnz hdate hflen hcnz
    | succ j =>
      rw [hsucc j (by omega)]
      exact boundary_step (fs.getD (j + 1) []) (fs.getD (j + 2) [])
        (fun r => ⟨r.date, r.value,
          (r.value : ℚ) * codeRatio (out.getD j []) (fs.getD (j + 1) [])⟩) (fun r => rfl)
        hanz hbnz hdate hflen hcnz

/-- C8 amended witness: a two-chunk aligned sequence; the overlap day 1 is
the last point of chunk 0 and the first point of chunk 1, with equal scaled
values in the output. -/
theorem c8_overlap_day_duplicated_consistent_witness :
    has_bad_edges [[⟨0, 2⟩, ⟨1, 4⟩], [⟨1, 2⟩, ⟨2, 6⟩]] = (false, "") ∧
    OverlapAligned [[⟨0, 2⟩, ⟨1, 4⟩], [⟨1, 2⟩, ⟨2, 6⟩]] ∧
    (∃ out, rescale_chunks [[⟨0, 2⟩, ⟨1, 4⟩], [⟨1, 2⟩, ⟨2, 6⟩]] = some out ∧
      out.map List.length =
        ([[⟨0, 2⟩, ⟨1, 4⟩], [⟨1, 2⟩, ⟨2, 6⟩]] : List Frame).map List.length ∧
      ∀ i, i + 1 < ([[⟨0, 2⟩, ⟨1, 4⟩], [⟨1, 2⟩, ⟨2, 6⟩]] : List Frame).length →
        ((out.getD i []).getLastD defaultSRow).date =
          ((out.getD (i + 1) []).headD defaultSRow).date ∧
        ((out.getD i []).getLastD defaultSRow).scaled =
          ((out.getD (i + 1) []).headD defaultSRow).scaled) :=
  ⟨by decide, List.chain'_pair.mpr ⟨by decide, by decide⟩,
    c8_overlap_day_duplicated_consistent _ (by decide)
      (List.chain'_pair.mpr ⟨by decide, by decide⟩)⟩


/-! ## Chunk Fetcher parsing (`parse_value` / `timeline_item_to_row`,
source lines 115-147) -/

/-- A JSON-ish scalar as handled by the parsing code: a string, a number
(the source treats `int` and `float` alike through `int(val_raw)`; numbers
are modelled as integers), or `null` (Python `None`). -/
inductive JVal where
  | s (str : String)
  | i (n : Int)
  | null
deriving DecidableEq, Repr

/-- Digits-only string to number (no sign), `none` when empty or when any
character is not an ASCII digit — the failure branch of Python `int(str)`. -/
def digitsVal (cs : List Char) : Option Nat :=
  if cs = [] then none
  else if cs.all Char.isDigit then
    some (cs.foldl (fun a c => a * 10 + (c.toNat - 48)) 0)
  else none

/-- Python `int(t)` on a (stripped) string: optional sign then digits. -/
def pyIntOfString (t : String) : Option Int :=
  match t.data with
  | [] => none
  | c :: rest =>
    if c = Char.ofNat 45 then (digitsVal rest).map (fun n => -(n : Int))
    else if c = Char.ofNat 43 then (digitsVal rest).map (fun n => (n : Int))
    else (digitsVal (c :: rest)).map (fun n => (n : Int))

/-- Python `t.replace(",", "")`: removes every comma. -/
def removeCommas (t : String) : String :=
  String.mk (t.data.filter (fun c => c ≠ ','))

/-- Python `t.strip()`: drops whitespace from both ends. -/
def pyStrip (t : String) : String :=
  String.mk
    (((t.data.dropWhile (fun c => c.isWhitespace)).reverse.dropWhile
      (fun c => c.isWhitespace)).reverse)

/-- Python `str(v)` for the scalar kinds above. -/
def pyStr (v : JVal) : String :=
  match v with
  | .s t => t
  | .i n => toString n
  | .null => "None"

/-- `parse_value(val_raw)` (source lines 115-124): the placeholders `"<1"`,
`""` and `None` map to 0; a number is returned as an integer; any other
string is comma-stripped, whitespace-trimmed and parsed as an integer, with
any failure caught and mapped to 0. -/
def parse_value (val_raw : JVal) : Int :=
  if val_raw = .s "<1" ∨ val_raw = .s "" ∨ val_raw = .null then 0
  else
    match val_raw with
    | .i n => n
    | v => (pyIntOfString (pyStrip (removeCommas (pyStr v)))).getD 0

/-- An entry of the `values` array of a timeline item: either a dict (whose
optional `value` key is read with default `0`) or any other shape. -/
inductive VEntry where
  | vdict (value : Option JVal)
  | vother (v : JVal)
deriving DecidableEq, Repr

/-- One upstream timeline entry, with the four fields the source reads.
`none` means the key is absent; `some .null` means it is present and null. -/
structure TLItem where
  date : Option JVal
  timestamp : Option JVal
  value : Option JVal
  values : Option (List VEntry)
deriving DecidableEq, Repr

/-- Python truthiness of the scalar kinds above (`item["date"]` check). -/
def truthy : JVal → Bool
  | .s t => t ≠ ""
  | .i n => n ≠ 0
  | .null => false

/-- Python `int(x)` on a scalar: numbers pass through, strings are stripped
and parsed, `None` raises (`none` here). -/
def pyInt : JVal → Option Int
  | .i n => some n
  | .s t => pyIntOfString (pyStrip t)
  | .null => none

/-- The library date parsers, treated as opaque total functions into integer
date codes: `parseDate` is `pd.to_datetime(x, utc=True, errors="coerce")`
(`none` = `NaT`) and `tsToDate` is `pd.to_datetime(n, unit="s", utc=True,
errors="coerce")` on an integer number of seconds. -/
structure PdLib where
  parseDate : JVal → Option Int
  tsToDate : Int → Option Int

/-- The value resolution of `timeline_item_to_row` (source lines 138-146):
a present `value` key is parsed directly; otherwise the first element of the
`values` array, if it is a dict, supplies `value` with default 0; else 0. -/
def item_value (item : TLItem) : Int :=
  match item.value with
  | some v => parse_value v
  | none =>
    match item.values.getD [] with
    | (VEntry.vdict o) :: _ => parse_value (o.getD (.i 0))
    | _ => 0

/-- `timeline_item_to_row(item)` (source lines 127-147): resolve the date
from the `date` field (when present and truthy) or else from `int(timestamp)`;
`.ok none` models `return None` (entry skipped), `.error ()` models the
uncaught exception of `int(item["timestamp"])` on a non-numeric value. -/
def timeline_item_to_row (pd : PdLib) (item : TLItem) : Except Unit (Option TRow) :=
  let date_dt : Option Int :=
    match item.date with
    | some v => if truthy v then pd.parseDate v else none
    | none => none
  match date_dt with
  | some d => Except.ok (some ⟨d, item_value item⟩)
  | none =>
    match item.timestamp with
    | some ts =>
      match pyInt ts with
      | none => Except.error ()
      | some n =>
        match pd.tsToDate n with
        | none => Except.ok none
        | some d => Except.ok (some ⟨d, item_value item⟩)
    | none => Except.ok none

/-- The row-collection loop of `fetch_chunk` (source lines 176-180): each
parsed row is kept, `None` results are skipped, an exception aborts. -/
def timeline_rows (pd : PdLib) : List TLItem → Except Unit (List TRow)
  | [] => Except.ok []
  | item :: rest =>
    match timeline_item_to_row pd item with
    | Except.error e => Except.error e
    | Except.ok none => timeline_rows pd rest
    | Except.ok (some r) => (timeline_rows pd rest).map (r :: ·)


/-! ## Claim C4 -/

/-- C4 counterexample: an entry with no resolvable date (no `date` and no
`timestamp` field) is omitted from the chunk entirely — `timeline_item_to_row`
returns `None` and the fetch loop skips it, contributing no point — rather
than degrading to a zero-valued point as claimed; and a parsed value can be
negative (a negative upstream numeric passes through `int()` unchanged), so
values are not always non-negative. -/
theorem c4_dateless_entry_omitted :
    timeline_rows ⟨fun _ => none, fun n => some n⟩ [⟨none, none, some (.i 7), none⟩] =
      Except.ok [] ∧
    parse_value (.i (-3)) = -3 :=
  ⟨rfl, rfl⟩

/-- C4 (amended): value parsing is total and integer-valued — the
placeholders `"<1"`, the empty string and null map to 0, comma-grouped digit
strings parse as integers, unparsable strings map to 0, numerics (including
negative ones) pass through, and a missing value field with an empty `values`
array degrades to 0 — and every emitted point carries exactly that parsed
value; but an entry whose date cannot be resolved (absent, falsy or
unparseable `date` and no `timestamp`) is omitted rather than emitted as a
zero-valued point, and a present null (non-numeric) `timestamp` raises,
aborting the chunk. -/
theorem c4_parse_value_semantics :
    (∀ (pd : PdLib) (item : TLItem), item.date = none → item.timestamp = none →
      timeline_item_to_row pd item = Except.ok none) ∧
    (∀ (pd : PdLib) (item : TLItem) (v : JVal), item.date = some v →
      (truthy v = false ∨ pd.parseDate v = none) → item.timestamp = none →
      timeline_item_to_row pd item = Except.ok none) ∧
    (∀ (pd : PdLib) (item : TLItem), item.date = none → item.timestamp = some .null →
      timeline_item_to_row pd item = Except.error ()) ∧
    (∀ (pd : PdLib) (item : TLItem) (r : TRow),
      timeline_item_to_row pd item = Except.ok (some r) → r.value = item_value item) ∧
    (parse_value (.s "<1") = 0 ∧ parse_value (.s "") = 0 ∧ parse_value .null = 0 ∧
      parse_value (.s "1,234") = 1234 ∧ parse_value (.s "abc") = 0 ∧
      (∀ n : Int, parse_value (.i n) = n)) ∧
    (∀ item : TLItem, item.value = none → item.values = some [] →
      item_value item = 0) := by
  refine ⟨?_, ?_, ?_, ?_, ⟨rfl, rfl, rfl, by decide, by decide, ?_⟩, ?_⟩
  · intro pd item h1 h2
    simp [timeline_item_to_row, h1, h2]
  · intro pd item v hv hcase h2
    cases ht : truthy v with
    | false => simp [timeline_item_to_row, hv, ht, h2]
    | true =>
      rcases hcase with hc | hc
      · rw [ht] at hc; cases hc
      · simp [timeline_item_to_row, hv, ht, hc, h2]
  · intro pd item h1 h2
    simp [timeline_item_to_row, h1, h2, pyInt]
  · intro pd item r h
    simp only [timeline_item_to_row] at h
    split at h
    · simp only [Except.ok.injEq, Option.some.injEq] at h
      rw [← h]
    · split at h
      · split at h
        · cases h
        · split at h
          · cases h
          · simp only [Except.ok.injEq, Option.some.injEq] at h
            rw [← h]
      · cases h
  · intro n
    simp [parse_value]
  · intro item h1 h2
    simp [item_value, h1, h2]

/-- C4 amended witness: concrete instances of each clause. -/
theorem c4_parse_value_semantics_witness :
    timeline_item_to_row ⟨fun _ => none, fun n => some n⟩ ⟨none, none, some (.i 5), none⟩ =
      Except.ok none ∧
    timeline_item_to_row ⟨fun _ => none, fun n => some n⟩
      ⟨some (.s ""), none, some (.i 5), none⟩ = Except.ok none ∧
    timeline_item_to_row ⟨fun _ => none, fun n => some n⟩ ⟨none, some .null, none, none⟩ =
      Except.error () ∧
    (⟨100, 7⟩ : TRow).value = item_value ⟨none, some (.i 100), some (.i 7), none⟩ ∧
    parse_value (.i 42) = 42 ∧
    item_value ⟨none, none, none, some []⟩ = 0 :=
  ⟨c4_parse_value_semantics.1 ⟨fun _ => none, fun n => some n⟩ _ rfl rfl,
    c4_parse_value_semantics.2.1 ⟨fun _ => none, fun n => some n⟩ _ _ rfl (Or.inl rfl) rfl,
    c4_parse_value_semantics.2.2.1 ⟨fun _ => none, fun n => some n⟩ _ rfl rfl,
    c4_parse_value_semantics.2.2.2.1 ⟨fun _ => none, fun n => some n⟩
      ⟨none, some (.i 100), some (.i 7), none⟩ ⟨100, 7⟩ rfl,
    c4_parse_value_semantics.2.2.2.2.1.2.2.2.2.2 42,
    c4_parse_value_semantics.2.2.2.2.2 ⟨none, none, none, some []⟩ rfl rfl⟩


/-! ## Fetcher effects and Run Orchestrator (`fetch_chunk` / `main`,
source lines 150-183 and 233-277) -/

/-- Externally visible actions of the fetch path: one remote request
(`GoogleSearch(params).get_dict()`) or an inter-call sleep.  The source
contains no sleep between requests, so no construct of the embedding ever
emits `delay`; the constructor exists to state the claimed property. -/
inductive Ev where
  | remote
  | delay
deriving DecidableEq, Repr

/-- The environment of one run: the on-disk cache (already parsed to rows)
and the remote endpoint, which may raise. -/
structure FetchEnv where
  cached : String → Int × Int → Option Frame
  remote : String → Int × Int → Except Unit Frame

/-- `fetch_chunk(keyword, begin, finish)` (source lines 150-183), reduced to
its effect structure: a cache hit returns the cached rows with no remote
call; a cache miss performs exactly one remote call, and a raised exception
is logged and re-raised (`Except.error`).  The second component is the trace
of emitted actions. -/
def fetch_chunk (env : FetchEnv) (kw : String) (w : Int × Int) :
    Except Unit Frame × List Ev :=
  match env.cached kw w with
  | some data => (Except.ok data, [])
  | none =>
    match env.remote kw w with
    | Except.error e => (Except.error e, [Ev.remote])
    | Except.ok data => (Except.ok data, [Ev.remote])

/-- The per-keyword window loop of `main` (source lines 253-257): windows are
fetched in order; an exception from `fetch_chunk` propagates (there is no
handler in `main`). -/
def fetchAll (env : FetchEnv) (kw : String) :
    List (Int × Int) → Except Unit (List Frame) × List Ev
  | [] => (Except.ok [], [])
  | w :: ws =>
    match fetch_chunk env kw w with
    | (Except.error e, tr) => (Except.error e, tr)
    | (Except.ok df, tr) =>
      match fetchAll env kw ws with
      | (Except.error e, tr2) => (Except.error e, tr ++ tr2)
      | (Except.ok dfs, tr2) => (Except.ok (df :: dfs), tr ++ tr2)

/-- Per-keyword outcome written to the output tables. -/
inductive Outcome where
  | unlinkable (reason : String)
  | linked (raw : List Frame) (scaled : List (List SRow))
deriving DecidableEq, Repr

/-- One keyword of the `main` loop (source lines 251-275): fetch every
window, validate, and on success rescale; a rescale `IndexError` also
propagates uncaught. -/
def processKeyword (env : FetchEnv) (sched : List (Int × Int)) (kw : String) :
    Except Unit Outcome × List Ev :=
  match fetchAll env kw sched with
  | (Except.error e, tr) => (Except.error e, tr)
  | (Except.ok frames, tr) =>
    match has_bad_edges frames with
    | (true, reason) => (Except.ok (Outcome.unlinkable reason), tr)
    | (false, _) =>
      match rescale_chunks frames with
      | none => (Except.error (), tr)
      | some sc => (Except.ok (Outcome.linked frames sc), tr)

/-- The keyword loop of `main` (source lines 251-277): keywords processed in
order; an uncaught exception aborts the whole run. -/
def run (env : FetchEnv) (sched : List (Int × Int)) :
    List String → Except Unit (List (String × Outcome)) × List Ev
  | [] => (Except.ok [], [])
  | kw :: rest =>
    match processKeyword env sched kw with
    | (Except.error e, tr) => (Except.error e, tr)
    | (Except.ok oc, tr) =>
      match run env sched rest with
      | (Except.error e, tr2) => (Except.error e, tr ++ tr2)
      | (Except.ok outs, tr2) => (Except.ok ((kw, oc) :: outs), tr ++ tr2)

/-! ## Claim C1 -/

/-- A run environment in which keyword `a` has an upstream failure on every
window and every other keyword succeeds; nothing is cached. -/
def failEnv : FetchEnv :=
  ⟨fun _ _ => none, fun kw _ => if kw = "a" then Except.error () else Except.ok [⟨0, 1⟩]⟩

/-- C1 counterexample: with one uncached fetch failure for keyword `a`, the
run aborts — keyword `a` never reaches validation and keyword `b` is never
processed — contradicting the claim that the failure is absorbed and
processing continues. -/
theorem c1_fetch_failure_aborts_run :
    (run failEnv [(0, 269)] ["a", "b"]).1 = Except.error () := rfl

/-- C1 (amended): a fetch failure for one chunk (upstream error, no cache
entry) is re-raised out of `fetch_chunk` and there is no handler in the
keyword loop, so the exception aborts the entire run: the keyword does not
proceed to validation and no subsequent keyword is processed. -/
theorem c1_fetch_failure_propagates :
    ∀ (env : FetchEnv) (sched : List (Int × Int)) (kw : String) (rest : List String)
      (e : Unit),
      (fetchAll env kw sched).1 = Except.error e →
      (run env sched (kw :: rest)).1 = Except.error e := by
  intro env sched kw rest e h
  cases hf : fetchAll env kw sched with
  | mk res tr =>
    rw [hf] at h
    simp only at h
    subst h
    simp [run, processKeyword, hf]

/-- C1 amended witness: the failing environment at keyword `a`. -/
theorem c1_fetch_failure_propagates_witness :
    (fetchAll failEnv "a" [(0, 269)]).1 = Except.error () ∧
    (run failEnv [(0, 269)] ["a", "b"]).1 = Except.error () :=
  ⟨rfl, c1_fetch_failure_propagates failEnv [(0, 269)] "a" ["b"] () rfl⟩

/-! ## Claim C9 -/

/-- The claimed temporal property of a trace: between two consecutive remote
calls there is always at least one delay (with only two event kinds, this is
the absence of adjacent `remote` events). -/
def interCallDelay : List Ev → Bool
  | Ev.remote :: Ev.remote :: _ => false
  | _ :: rest => interCallDelay rest
  | [] => true

theorem delay_not_mem_fetch_chunk (env : FetchEnv) (kw : String) (w : Int × Int) :
    Ev.delay ∉ (fetch_chunk env kw w).2 := by
  simp only [fetch_chunk]
  cases env.cached kw w with
  | some d => simp
  | none =>
    cases env.remote kw w with
    | error e => simp
    | ok d => simp

theorem delay_not_mem_fetchAll (env : FetchEnv) (kw : String) :
    ∀ ws : List (Int × Int), Ev.delay ∉ (fetchAll env kw ws).2 := by
  intro ws
  induction ws with
  | nil => simp [fetchAll]
  | cons w ws ih =>
    have hf := delay_not_mem_fetch_chunk env kw w
    simp only [fetchAll]
    cases hfc : fetch_chunk env kw w with
    | mk res tr =>
      rw [hfc] at hf
      cases res with
      | error e => simpa using hf
      | ok df =>
        cases hall : fetchAll env kw ws with
        | mk res2 tr2 =>
          rw [hall] at ih
          cases res2 with
          | error e =>
            intro hmem
            rcases List.mem_append.mp hmem with hm | hm
            · exact hf hm
            · exact ih hm
          | ok dfs =>
            intro hmem
            rcases List.mem_append.mp hmem with hm | hm
            · exact hf hm
            · exact ih hm

theorem delay_not_mem_processKeyword (env : FetchEnv) (sched : List (Int × Int))
    (kw : String) : Ev.delay ∉ (processKeyword env sched kw).2 := by
  have hf := delay_not_mem_fetchAll env kw sched
  simp only [processKeyword]
  revert hf
  generalize fetchAll env kw sched = p
  obtain ⟨res, tr⟩ := p
  intro hf
  cases res with
  | error e => simpa using hf
  | ok frames =>
    simp only at hf ⊢
    split
    · simpa using hf
    · split
      · simpa using hf
      · simpa using hf

/-- C9 counterexample: with two uncached windows for one keyword, the run
issues two remote calls back to back, with no delay event anywhere in the
trace — there is no inter-call delay in the source at all. -/
theorem c9_no_delay_between_remote_calls :
    (run ⟨fun _ _ => none, fun _ _ => Except.ok [⟨0, 1⟩]⟩
        [(0, 269), (269, 538)] ["a"]).2 = [Ev.remote, Ev.remote] ∧
    interCallDelay [Ev.remote, Ev.remote] = false :=
  ⟨rfl, rfl⟩

/-- C9 (amended): no inter-call delay is enforced anywhere — the trace of a
run never contains a delay event, so consecutive remote calls are issued
back to back; a fetch served from cache performs no remote call (and hence
also no delay). -/
theorem c9_cache_hits_skip_remote_no_delay :
    (∀ (env : FetchEnv) (sched : List (Int × Int)) (kws : List String),
      Ev.delay ∉ (run env sched kws).2) ∧
    (∀ (env : FetchEnv) (kw : String) (w : Int × Int) (f : Frame),
      env.cached kw w = some f → fetch_chunk env kw w = (Except.ok f, [])) := by
  constructor
  · intro env sched kws
    induction kws with
    | nil => simp [run]
    | cons kw rest ih =>
      have hp := delay_not_mem_processKeyword env sched kw
      simp only [run]
      cases hpc : processKeyword env sched kw with
      | mk res tr =>
        rw [hpc] at hp
        cases res with
        | error e => simpa using hp
        | ok oc =>
          cases hrun : run env sched rest with
          | mk res2 tr2 =>
            rw [hrun] at ih
            cases res2 with
            | error e =>
              intro hmem
              rcases List.mem_append.mp hmem with hm | hm
              · exact hp hm
              · exact ih hm
            | ok outs =>
              intro hmem
              rcases List.mem_append.mp hmem with hm | hm
              · exact hp hm
              · exact ih hm
  · intro env kw w f h
    simp [fetch_chunk, h]

/-- C9 amended witness: a concrete cache-hit fetch and a concrete run trace. -/
theorem c9_cache_hits_skip_remote_no_delay_witness :
    Ev.delay ∉ (run failEnv [(0, 269)] ["b"]).2 ∧
    fetch_chunk ⟨fun _ _ => some [⟨0, 1⟩], fun _ _ => Except.ok []⟩ "a" (0, 269) =
      (Except.ok [⟨0, 1⟩], []) :=
  ⟨c9_cache_hits_skip_remote_no_delay.1 failEnv [(0, 269)] ["b"],
    c9_cache_hits_skip_remote_no_delay.2 ⟨fun _ _ => some [⟨0, 1⟩], fun _ _ => Except.ok []⟩
      "a" (0, 269) [⟨0, 1⟩] rfl⟩

/-! ## Claim C2 -/

/-- A DataFrame to be appended: column names and rendered data rows. -/
structure DfModel where
  cols : List String
  rows : List (List String)

/-- The CSV header line of a DataFrame. -/
def headerLine (df : DfModel) : String := String.intercalate "," df.cols

/-- The rendered data lines of a DataFrame. -/
def dataLines (df : DfModel) : List String := df.rows.map (String.intercalate ",")

/-- `append_csv(path, df)` (source lines 227-229): `header = not
path.exists()`, then `df.to_csv(path, mode="a", header=header)` — appends a
header line only when the file did not exist, then the data rows.  A file is
`none` when missing, `some lines` when present. -/
def append_csv (file : Option (List String)) (df : DfModel) : List String :=
  let header := file.isNone
  (file.getD []) ++ (if header then [headerLine df] else []) ++ dataLines df

/-- The output-file preparation of `main` (source lines 246-249): a missing
file is created empty via `p.write_text("")` before any append. -/
def precreate (file : Option (List String)) : Option (List String) :=
  match file with
  | none => some []
  | some c => some c

/-- C2: in the flow of `main`, the header is never written.  `main`
pre-creates each missing output file as an empty file, so the first
`append_csv` sees an existing file and writes only data rows, and every later
append likewise appends only data rows; only a direct append to a missing
file — which cannot happen after the pre-creation — would have written the
header once.  This contradicts both the claim and the source's own comment
that the header is handled by `append_csv`. -/
theorem c2_header_never_written :
    (∀ df : DfModel, append_csv (precreate none) df = dataLines df) ∧
    (∀ (df : DfModel) (c : List String), append_csv (some c) df = c ++ dataLines df) ∧
    (∀ df : DfModel, append_csv none df = headerLine df :: dataLines df) :=
  ⟨fun _ => rfl, fun df c => by simp [append_csv], fun _ => rfl⟩

end Crawl
